import Mathlib

/-!
Verification of the Ozone-coin backend (src/app.ts): the bearer-token
codec (signToken / verifyToken / requireAdmin), the admin login handler,
and the two storage backends (in-memory arrays and the MongoDB document
store) behind the class / student / coins HTTP handlers.

Modelling conventions:
* JavaScript numbers are modelled as `Int` (the API only exchanges
  integral values; float formatting and rounding are outside the model).
* JSON body values are modelled by `JSVal` (undefined, null, booleans,
  numbers, strings); `jsTruthy`, `jsToNumber`, `jsToString` model the
  JavaScript truthiness test, `Number(...)` coercion and `String(...)`
  coercion on those values.
* `crypto.createHmac("sha256", JWT_SECRET).update(s).digest("base64url")`
  is an external Node primitive; the codec is parametric in a function
  `mac : String → String` standing for it, and `macModel` is a concrete
  executable instance used to evaluate closed statements.  Real HMAC
  digests are nonempty and dot-free; `MacGood` captures exactly that.
* `String.prototype.trim`, `startsWith` and `slice` are modelled over
  `String.data` (`jsTrim`, `strLeadsWith`, `strDropChars`); the strings
  involved are ASCII, where the models agree with JavaScript.
* Mutable endpoint handlers are pure state transformers
  `State → State × Resp`; fresh ids (`new ObjectId()` / `insertedId`)
  are explicit arguments.
-/

/-- JSON body values as delivered by express.json, plus `undefined` for an
absent property. -/
inductive JSVal where
  | undef : JSVal
  | null : JSVal
  | bool : Bool → JSVal
  | num : Int → JSVal
  | str : String → JSVal
deriving DecidableEq

/-- JavaScript truthiness of a `JSVal` (`!v` is `!jsTruthy v`). -/
def jsTruthy : JSVal → Bool
  | JSVal.undef => false
  | JSVal.null => false
  | JSVal.bool b => b
  | JSVal.num n => n != 0
  | JSVal.str s => s != ""

/-- Decimal digit character for `d < 10`. -/
def digitChar (d : Nat) : Char := Char.ofNat (48 + d)

/-- Numeric value of a decimal digit character. -/
def charDigit (c : Char) : Nat := c.toNat - 48

/-- Is `c` a decimal digit? -/
def isDigitCh (c : Char) : Bool := 48 ≤ c.toNat && c.toNat ≤ 57

/-- Least-significant-first decimal digits of `n`, with explicit fuel so
that the definition is structurally recursive (hence kernel-reducible). -/
def natDigitsAux : Nat → Nat → List Nat
  | 0, _ => []
  | fuel + 1, n => if n = 0 then [] else n % 10 :: natDigitsAux fuel (n / 10)

/-- Most-significant-first decimal digits of `n` (`[0]` for `0`). -/
def msfDigits (n : Nat) : List Nat :=
  if n = 0 then [0] else (natDigitsAux n n).reverse

/-- Decimal notation of a natural number, as JavaScript prints it. -/
def natChars (n : Nat) : List Char := (msfDigits n).map digitChar

/-- Decimal notation of an integer, as `JSON.stringify` prints it. -/
def intChars (i : Int) : List Char :=
  if i < 0 then '-' :: natChars i.natAbs else natChars i.natAbs

/-- Greedily consume decimal digits, returning the accumulated value and
the rest of the input. -/
def parseDigitsAux (acc : Nat) : List Char → Nat × List Char
  | [] => (acc, [])
  | c :: cs =>
    if isDigitCh c then parseDigitsAux (acc * 10 + charDigit c) cs else (acc, c :: cs)

/-- Parse one or more decimal digits. -/
def parseNat : List Char → Option (Nat × List Char)
  | [] => none
  | c :: cs => if isDigitCh c then some (parseDigitsAux (charDigit c) cs) else none

/-- Parse an optionally `-`-signed decimal integer. -/
def parseInt : List Char → Option (Int × List Char)
  | [] => none
  | c :: cs =>
    if c = '-' then (parseNat cs).map (fun p => (-(p.1 : Int), p.2))
    else (parseNat (c :: cs)).map (fun p => ((p.1 : Int), p.2))

/-- Strip an expected literal from the front of the input. -/
def dropLit : List Char → List Char → Option (List Char)
  | [], cs => some cs
  | _ :: _, [] => none
  | l :: ls, c :: cs => if c = l then dropLit ls cs else none

/-- The character `\x7b` (left curly brace). -/
def lbr : Char := Char.ofNat 123

/-- The character `\x7d` (right curly brace). -/
def rbr : Char := Char.ofNat 125

/-- The token payload as `signToken` receives it: `\x7b a: number; exp: number \x7d`. -/
structure SignPayload where
  a : Int
  exp : Int
deriving DecidableEq

/-- The payload as `verifyToken` reads it back: `\x7b a?: number; exp?: number \x7d`
(either property may be absent). -/
structure ParsedPayload where
  a : Option Int
  exp : Option Int
deriving DecidableEq

/-- `JSON.stringify(\x7ba: ..., exp: ...\x7d)`: keys in insertion order, integers in
decimal. -/
def serializePayload (a exp : Int) : List Char :=
  lbr :: '"' :: 'a' :: '"' :: ':' ::
    (intChars a ++ ',' :: '"' :: 'e' :: 'x' :: 'p' :: '"' :: ':' :: (intChars exp ++ [rbr]))

/-- `JSON.parse` restricted to the object shapes the codec exchanges:
`\x7b"a":INT\x7d` and `\x7b"a":INT,"exp":INT\x7d`; anything else fails (`none`
models the exception caught by `verifyToken`). -/
def parsePayloadChars (cs : List Char) : Option ParsedPayload :=
  (dropLit [lbr, '"', 'a', '"', ':'] cs).bind fun cs1 =>
    (parseInt cs1).bind fun p =>
      match p.2 with
      | [] => none
      | c :: cs2 =>
        if c = rbr then
          if cs2 = [] then some ⟨some p.1, none⟩ else none
        else if c = ',' then
          (dropLit ['"', 'e', 'x', 'p', '"', ':'] cs2).bind fun cs3 =>
            (parseInt cs3).bind fun q =>
              match q.2 with
              | [d] => if d = rbr then some ⟨some p.1, some q.1⟩ else none
              | _ => none
        else none

/-- `split(".")` on a character list: JavaScript `String.prototype.split`
with a one-character separator. -/
def splitDotChars : List Char → List (List Char)
  | [] => [[]]
  | c :: cs =>
    if c = '.' then [] :: splitDotChars cs
    else
      match splitDotChars cs with
      | [] => [[c]]
      | h :: t => (c :: h) :: t

/-- `token.split(".")` on strings. -/
def splitDot (s : String) : List String := (splitDotChars s.data).map String.mk

/-- Character of a 6-bit group in the URL-safe base64 alphabet. -/
def b64Char (i : Nat) : Char :=
  if i < 26 then Char.ofNat (65 + i)
  else if i < 52 then Char.ofNat (97 + (i - 26))
  else if i < 62 then Char.ofNat (48 + (i - 52))
  else if i = 62 then '-' else '_'

/-- Index of a URL-safe base64 alphabet character. -/
def b64CharIdx (c : Char) : Option Nat :=
  if 65 ≤ c.toNat ∧ c.toNat ≤ 90 then some (c.toNat - 65)
  else if 97 ≤ c.toNat ∧ c.toNat ≤ 122 then some (c.toNat - 97 + 26)
  else if 48 ≤ c.toNat ∧ c.toNat ≤ 57 then some (c.toNat - 48 + 52)
  else if c = '-' then some 62
  else if c = '_' then some 63
  else none

/-- Padding-free URL-safe base64 encoding of a byte sequence
(`Buffer.prototype.toString("base64url")`). -/
def encodeB64 : List Nat → List Char
  | [] => []
  | [b1] => [b64Char (b1 / 4), b64Char (b1 % 4 * 16)]
  | [b1, b2] => [b64Char (b1 / 4), b64Char (b1 % 4 * 16 + b2 / 16), b64Char (b2 % 16 * 4)]
  | b1 :: b2 :: b3 :: rest =>
    b64Char ((b1 * 65536 + b2 * 256 + b3) / 262144) ::
      b64Char ((b1 * 65536 + b2 * 256 + b3) / 4096 % 64) ::
        b64Char ((b1 * 65536 + b2 * 256 + b3) / 64 % 64) ::
          b64Char ((b1 * 65536 + b2 * 256 + b3) % 64) :: encodeB64 rest

/-- URL-safe base64 decoding (`Buffer.from(s, "base64url")`); a character
outside the alphabet fails the whole decode (Node silently skips such
characters instead, a difference invisible to the verified statements:
on Node that path still ends in a `JSON.parse` failure). -/
def decodeB64 : List Char → Option (List Nat)
  | [] => some []
  | [_] => some []
  | [c1, c2] =>
    (b64CharIdx c1).bind fun i1 => (b64CharIdx c2).bind fun i2 =>
      some [i1 * 4 + i2 / 16]
  | [c1, c2, c3] =>
    (b64CharIdx c1).bind fun i1 => (b64CharIdx c2).bind fun i2 =>
      (b64CharIdx c3).bind fun i3 =>
        some [i1 * 4 + i2 / 16, i2 % 16 * 16 + i3 / 4]
  | c1 :: c2 :: c3 :: c4 :: rest =>
    (b64CharIdx c1).bind fun i1 => (b64CharIdx c2).bind fun i2 =>
      (b64CharIdx c3).bind fun i3 => (b64CharIdx c4).bind fun i4 =>
        (decodeB64 rest).map fun bs =>
          (i1 * 4 + i2 / 16) :: (i2 % 16 * 16 + i3 / 4) :: (i3 % 4 * 64 + i4) :: bs

/-- UTF-8 bytes of an ASCII string (code points below 128 encode as
themselves). -/
def strBytes (cs : List Char) : List Nat := cs.map Char.toNat

/-- Decoded bytes back to characters (`Buffer.prototype.toString()`,
exact on the ASCII range the codec produces). -/
def bytesChars (bs : List Nat) : List Char := bs.map Char.ofNat

/-- `decodePayload` is the read-back path of `verifyToken`:
`JSON.parse(Buffer.from(payloadB64, "base64url").toString())`, with the
caught exception modelled as `none`. -/
def decodePayload (s : String) : Option ParsedPayload :=
  (decodeB64 s.data).bind fun bs => parsePayloadChars (bytesChars bs)

/-- `signToken` (src/app.ts lines 62-66), parametric in the HMAC: base64url
the JSON payload, `mac` it, and join the two parts with a dot. -/
def signToken (mac : String → String) (p : SignPayload) : String :=
  let payloadB64 := String.mk (encodeB64 (strBytes (serializePayload p.a p.exp)))
  payloadB64 ++ "." ++ mac payloadB64

/-- `verifyToken` (src/app.ts lines 67-79): split on dots, require the
first two parts non-empty, recompute the MAC, decode the payload, and
check role marker `a == 1`, truthy `exp`, and `exp < Date.now()`. -/
def verifyToken (mac : String → String) (token : String) (now : Int) : Bool :=
  match splitDot token with
  | payloadB64 :: sig :: _ =>
    if payloadB64 = "" then false
    else if sig = "" then false
    else if mac payloadB64 = sig then
      match decodePayload payloadB64 with
      | none => false
      | some p =>
        if p.a = some 1 then
          match p.exp with
          | none => false
          | some e => if e = 0 then false else if e < now then false else true
        else false
    else false
  | _ => false

/-- Default admin username (src/app.ts line 19). -/
def ADMIN_USER : String := "admin2026"

/-- Default admin password (src/app.ts line 20). -/
def ADMIN_PASSWORD : String := "112212"

/-- Outcome of `POST /api/admin/login`. -/
inductive LoginResp where
  | ok : String → LoginResp
  | invalid : LoginResp
deriving DecidableEq

/-- `POST /api/admin/login` (src/app.ts lines 164-172): exact credential
match issues a token with role marker `1` and a 7-day expiry. -/
def adminLogin (mac : String → String) (user password : JSVal) (now : Int) : LoginResp :=
  if user = JSVal.str ADMIN_USER ∧ password = JSVal.str ADMIN_PASSWORD then
    LoginResp.ok (signToken mac ⟨1, now + 7 * 24 * 60 * 60 * 1000⟩)
  else LoginResp.invalid

/-- Does the pattern (first argument) lead the character list (second
argument)?  Used to model `String.prototype.startsWith`. -/
def leadsChars : List Char → List Char → Bool
  | [], _ => true
  | _ :: _, [] => false
  | p :: ps, c :: cs => p = c && leadsChars ps cs

/-- `s.startsWith(pat)` over `String.data` (exact on ASCII input). -/
def strLeadsWith (s pat : String) : Bool := leadsChars pat.data s.data

/-- `s.slice(n)` over `String.data` (exact on ASCII input). -/
def strDropChars (s : String) (n : Nat) : String := String.mk (s.data.drop n)

/-- Bearer-token extraction of `requireAdmin` (src/app.ts line 83):
`auth?.startsWith("Bearer ") ? auth.slice(7) : null`. -/
def bearerToken (auth : Option String) : Option String :=
  match auth with
  | some a => if strLeadsWith a "Bearer " then some (strDropChars a 7) else none
  | none => none

/-- `requireAdmin` (src/app.ts lines 81-89) as an admit predicate:
`!token || !verifyToken(token)` rejects. -/
def requireAdmin (mac : String → String) (auth : Option String) (now : Int) : Bool :=
  match bearerToken auth with
  | none => false
  | some t => if t = "" then false else verifyToken mac t now

/-- Responses of the data-store handlers, reduced to the fields the
claims are about (status code and returned entity fields). -/
inductive Resp where
  | classCreated (id name : String)
  | studentCreated (id name classId : String) (coins : Int)
  | studentUpdated (id name : String) (coins : Int) (classId : String)
  | done
  | error (status : Nat)
deriving DecidableEq

/-- Express's middleware chaining for a guarded route: `requireAdmin`
either answers 401 itself (the handler never runs, the state is the one
it was handed) or calls `next()` into the handler. -/
def runGuarded {σ : Type} (mac : String → String) (auth : Option String) (now : Int)
    (handler : σ → σ × Resp) (s : σ) : σ × Resp :=
  if requireAdmin mac auth now then handler s else (s, Resp.error 401)

/-- An entry of `memoryClasses` (src/app.ts line 17). -/
structure MemClass where
  id : String
  name : String
deriving DecidableEq

/-- An entry of `memoryStudents` (src/app.ts line 18). -/
structure MemStudent where
  id : String
  name : String
  coins : Int
  classId : String
deriving DecidableEq

/-- The in-memory store: the two module-level arrays. -/
structure MemState where
  classes : List MemClass
  students : List MemStudent
deriving DecidableEq

/-- ASCII whitespace (the claims only exercise ASCII; JavaScript's trim
also strips rarer Unicode space characters). -/
def isWs (c : Char) : Bool := c = ' ' || c = '\t' || c = '\n' || c = '\r'

/-- `String.prototype.trim`. -/
def jsTrim (s : String) : String :=
  String.mk (((s.data.dropWhile isWs).reverse.dropWhile isWs).reverse)

/-- Decimal notation of an integer as a string. -/
def intStr (i : Int) : String := String.mk (intChars i)

/-- JavaScript `String(v)` coercion on the modelled values. -/
def jsToString : JSVal → String
  | JSVal.undef => "undefined"
  | JSVal.null => "null"
  | JSVal.bool b => if b then "true" else "false"
  | JSVal.num n => intStr n
  | JSVal.str s => s

/-- `Number(string)`: empty / blank coerces to 0, a signed decimal
integer to its value, anything else to NaN (`none`); fractional and
exponent string forms are outside the Int model. -/
def strToNumber (s : String) : Option Int :=
  match (jsTrim s).data with
  | [] => some 0
  | c :: cs =>
    if c = '-' then
      match parseNat cs with
      | some (n, []) => some (-(n : Int))
      | _ => none
    else
      match parseNat (c :: cs) with
      | some (n, []) => some ((n : Int))
      | _ => none

/-- JavaScript `Number(v)` coercion; `none` models NaN, so
`Number.isNaN(Number(v))` is `jsToNumber v = none`. -/
def jsToNumber : JSVal → Option Int
  | JSVal.undef => none
  | JSVal.null => some 0
  | JSVal.bool b => some (if b then 1 else 0)
  | JSVal.num n => some n
  | JSVal.str s => strToNumber s

/-- `array.splice(idx, 1)` after a successful `findIndex`: drop the first
element satisfying the test. -/
def removeFirst {α : Type} (p : α → Bool) : List α → List α
  | [] => []
  | x :: xs => if p x then xs else x :: removeFirst p xs

/-- In-place mutation of the first element `find` located. -/
def updateFirst {α : Type} (p : α → Bool) (f : α → α) : List α → List α
  | [] => []
  | x :: xs => if p x then f x :: xs else x :: updateFirst p f xs

/-- Insertion step of the coins-descending sort. -/
def insertByCoins (s : MemStudent) : List MemStudent → List MemStudent
  | [] => [s]
  | t :: ts => if t.coins < s.coins then s :: t :: ts else t :: insertByCoins s ts

/-- `.sort((a, b) => b.coins - a.coins)`: coins descending, tie order
unspecified. -/
def sortByCoinsDesc (l : List MemStudent) : List MemStudent := l.foldr insertByCoins []

/-- GET /api/classes, memory branch (src/app.ts line 124). -/
def memListClasses (st : MemState) : List (String × String) :=
  st.classes.map fun c => (c.id, c.name)

/-- GET /api/classes/:classId/students, memory branch (src/app.ts lines
137-139). -/
def memListStudentsByClass (st : MemState) (classId : String) : List MemStudent :=
  sortByCoinsDesc (st.students.filter fun s => s.classId = classId)

/-- POST /api/classes, memory branch (src/app.ts lines 179-186): falsy or
non-string name is rejected, otherwise the trimmed name is stored under a
fresh id. -/
def memCreateClass (nameV : JSVal) (freshId : String) (st : MemState) : MemState × Resp :=
  match nameV with
  | JSVal.str s =>
    if s = "" then (st, Resp.error 400)
    else
      ({ st with classes := st.classes ++ [⟨freshId, jsTrim s⟩] },
        Resp.classCreated freshId (jsTrim s))
  | _ => (st, Resp.error 400)

/-- DELETE /api/classes/:id, memory branch (src/app.ts lines 199-206):
404 when no class matches, else splice the class out and remove every
student of that class. -/
def memDeleteClass (id : String) (st : MemState) : MemState × Resp :=
  if st.classes.any fun c => c.id = id then
    ({ classes := removeFirst (fun c => c.id = id) st.classes,
       students := st.students.filter fun s => s.classId ≠ id }, Resp.done)
  else (st, Resp.error 404)

/-- POST /api/students, memory branch (src/app.ts lines 223-232): falsy
name or classId is rejected, the classId must match an existing class,
and the new student starts with 0 coins. -/
def memCreateStudent (nameV classIdV : JSVal) (freshId : String) (st : MemState) :
    MemState × Resp :=
  if jsTruthy nameV = false || jsTruthy classIdV = false then (st, Resp.error 400)
  else
    let cidStr := jsToString classIdV
    if st.classes.any fun c => c.id = cidStr then
      ({ st with students := st.students ++ [⟨freshId, jsTrim (jsToString nameV), 0, cidStr⟩] },
        Resp.studentCreated freshId (jsTrim (jsToString nameV)) cidStr 0)
    else (st, Resp.error 400)

/-- DELETE /api/students/:id, memory branch (src/app.ts lines 252-256). -/
def memDeleteStudent (id : String) (st : MemState) : MemState × Resp :=
  if st.students.any fun s => s.id = id then
    ({ st with students := removeFirst (fun s => s.id = id) st.students }, Resp.done)
  else (st, Resp.error 404)

/-- PATCH /api/students/:id/coins, memory branch (src/app.ts lines
271-279): NaN amount is rejected with 400, a missing student with 404,
otherwise the first matching student's balance is incremented in place
and the updated record is returned. -/
def memApplyCoins (amountV : JSVal) (id : String) (st : MemState) : MemState × Resp :=
  match jsToNumber amountV with
  | none => (st, Resp.error 400)
  | some num =>
    match st.students.find? (fun s => s.id = id) with
    | none => (st, Resp.error 404)
    | some s =>
      ({ st with
          students := updateFirst (fun x => x.id = id)
            (fun x => { x with coins := x.coins + num }) st.students },
        Resp.studentUpdated s.id s.name (s.coins + num) s.classId)

/-- A document of the `classes` collection. -/
structure ClassDoc where
  oid : String
  name : String
deriving DecidableEq

/-- A document of the `students` collection. -/
structure StudentDoc where
  oid : String
  name : String
  coins : Int
  classId : String
deriving DecidableEq

/-- The durable (MongoDB) store: the two collections, ids rendered as
their 24-character hex strings. -/
structure DurState where
  classes : List ClassDoc
  students : List StudentDoc
deriving DecidableEq

/-- Hexadecimal digit character. -/
def isHexCh (c : Char) : Bool :=
  (48 ≤ c.toNat && c.toNat ≤ 57) || (97 ≤ c.toNat && c.toNat ≤ 102) ||
    (65 ≤ c.toNat && c.toNat ≤ 70)

/-- `new ObjectId(s)` succeeds exactly on 24-character hex strings;
anything else throws (modelled as the rejecting branch at each use
site). -/
def isValidObjectId (s : String) : Bool := s.data.length = 24 && s.data.all isHexCh

/-- POST /api/students, durable branch (src/app.ts lines 223-224,
234-243): falsy fields and malformed ObjectId strings are rejected, but
no existence check is made on the class; `insertOne` appends the student
document with 0 coins.  A non-string classId is modelled as the
ObjectId-constructor throwing case. -/
def durCreateStudent (nameV classIdV : JSVal) (freshId : String) (st : DurState) :
    DurState × Resp :=
  if jsTruthy nameV = false || jsTruthy classIdV = false then (st, Resp.error 400)
  else
    match classIdV with
    | JSVal.str cid =>
      if isValidObjectId cid then
        ({ st with students := st.students ++ [⟨freshId, jsTrim (jsToString nameV), 0, cid⟩] },
          Resp.studentCreated freshId (jsTrim (jsToString nameV)) cid 0)
      else (st, Resp.error 400)
    | _ => (st, Resp.error 400)

/-- DELETE /api/classes/:id, durable branch (src/app.ts lines 208-219):
a malformed id throws inside the try and yields 500; otherwise
`deleteMany` removes every student of the class first, then `deleteOne`
removes the class, and `deletedCount === 0` yields 404 — after the
students are already gone. -/
def durDeleteClass (id : String) (st : DurState) : DurState × Resp :=
  if isValidObjectId id then
    if st.classes.any fun c => c.oid = id then
      ({ classes := removeFirst (fun c => c.oid = id) st.classes,
         students := st.students.filter fun s => s.classId ≠ id }, Resp.done)
    else ({ st with students := st.students.filter fun s => s.classId ≠ id },
      Resp.error 404)
  else (st, Resp.error 500)

/-- The referential invariant of the in-memory store: every live student
points at an existing class. -/
def StudentRefsOK (st : MemState) : Prop :=
  ∀ s ∈ st.students, ∃ c ∈ st.classes, c.id = s.classId

/-- A concrete executable stand-in for the external
`crypto.createHmac("sha256", JWT_SECRET)` digest, used to evaluate
closed statements; like a real base64url digest its output is nonempty
and dot-free. -/
def macModel (s : String) : String :=
  String.mk ('s' :: 'i' :: 'g' :: natChars
    (s.data.foldl (fun h c => (h * 31 + c.toNat) % 4294967296) 7))

/-- What the codec relies on about the external digest: HMAC-SHA-256
base64url output is a nonempty dot-free string. -/
def MacGood (mac : String → String) : Prop :=
  ∀ s, mac s ≠ "" ∧ ∀ c ∈ (mac s).data, c ≠ '.'

/-- Value of least-significant-first decimal digits. -/
def lsfVal (l : List Nat) : Nat := l.foldr (fun d acc => d + 10 * acc) 0

theorem digit_roundtrip : ∀ d, d < 10 → charDigit (digitChar d) = d := by decide

theorem digit_isDigit : ∀ d, d < 10 → isDigitCh (digitChar d) = true := by decide

theorem digit_ne_minus : ∀ d, d < 10 → digitChar d ≠ '-' := by decide

theorem digit_ne_dot : ∀ d, d < 10 → digitChar d ≠ '.' := by decide

theorem digit_ascii : ∀ d, d < 10 → (digitChar d).toNat < 128 := by decide

theorem natDigitsAux_lt : ∀ fuel n d, d ∈ natDigitsAux fuel n → d < 10 := by
  intro fuel
  induction fuel with
  | zero => intro n d h; simp [natDigitsAux] at h
  | succ f ih =>
    intro n d h
    by_cases h0 : n = 0
    · simp [natDigitsAux, h0] at h
    · simp only [natDigitsAux, if_neg h0, List.mem_cons] at h
      rcases h with h | h
      · omega
      · exact ih _ _ h

theorem natDigitsAux_val : ∀ fuel n, n ≤ fuel → lsfVal (natDigitsAux fuel n) = n := by
  intro fuel
  induction fuel with
  | zero => intro n h; interval_cases n; simp [natDigitsAux, lsfVal]
  | succ f ih =>
    intro n h
    by_cases h0 : n = 0
    · simp [natDigitsAux, h0, lsfVal]
    · have hd : n / 10 ≤ f := by omega
      simp only [natDigitsAux, if_neg h0, lsfVal, List.foldr_cons]
      have := ih (n / 10) hd
      simp only [lsfVal] at this
      rw [this]
      omega

theorem foldl_reverse_lsf :
    ∀ (l : List Nat) (acc : Nat),
      List.foldl (fun a d => a * 10 + d) acc l.reverse = acc * 10 ^ l.length + lsfVal l := by
  intro l
  induction l with
  | nil => intro acc; simp [lsfVal]
  | cons x xs ih =>
    intro acc
    simp only [List.reverse_cons, List.foldl_append, List.foldl_cons, List.foldl_nil, ih,
      lsfVal, List.foldr_cons, List.length_cons]
    ring

theorem msfDigits_lt : ∀ n d, d ∈ msfDigits n → d < 10 := by
  intro n d h
  by_cases h0 : n = 0
  · simp [msfDigits, h0] at h; omega
  · simp only [msfDigits, if_neg h0, List.mem_reverse] at h
    exact natDigitsAux_lt _ _ _ h

theorem msfDigits_val : ∀ n, List.foldl (fun a d => a * 10 + d) 0 (msfDigits n) = n := by
  intro n
  by_cases h0 : n = 0
  · simp [msfDigits, h0]
  · simp only [msfDigits, if_neg h0]
    rw [foldl_reverse_lsf]
    rw [natDigitsAux_val n n (le_refl n)]
    ring

theorem msfDigits_ne_nil : ∀ n, msfDigits n ≠ [] := by
  intro n
  by_cases h0 : n = 0
  · simp [msfDigits, h0]
  · simp only [msfDigits, if_neg h0]
    intro hrev
    rw [List.reverse_eq_nil_iff] at hrev
    cases n with
    | zero => exact h0 rfl
    | succ m => simp [natDigitsAux, h0] at hrev

/-- Does the input start with a decimal digit? -/
def headDigit : List Char → Bool
  | [] => false
  | c :: _ => isDigitCh c

theorem parseDigitsAux_spec :
    ∀ (ds : List Nat) (acc : Nat) (rest : List Char), (∀ d ∈ ds, d < 10) →
      headDigit rest = false →
      parseDigitsAux acc (ds.map digitChar ++ rest) =
        (List.foldl (fun a d => a * 10 + d) acc ds, rest) := by
  intro ds
  induction ds with
  | nil =>
    intro acc rest _ hr
    cases rest with
    | nil => simp [parseDigitsAux]
    | cons c cs =>
      simp only [headDigit] at hr
      simp [parseDigitsAux, hr]
  | cons d ds ih =>
    intro acc rest hd hr
    have hdlt : d < 10 := hd d (List.mem_cons_self d ds)
    simp only [List.map_cons, List.cons_append, parseDigitsAux,
      digit_isDigit d hdlt, if_true, digit_roundtrip d hdlt, List.append_eq]
    rw [ih _ rest (fun x hx => hd x (List.mem_cons_of_mem d hx)) hr]
    simp

theorem parseNat_natChars :
    ∀ (n : Nat) (rest : List Char), headDigit rest = false →
      parseNat (natChars n ++ rest) = some (n, rest) := by
  intro n rest hr
  have hne := msfDigits_ne_nil n
  rcases hm : msfDigits n with _ | ⟨d, ds⟩
  · exact absurd hm hne
  · have hdlt : d < 10 := msfDigits_lt n d (by rw [hm]; exact List.mem_cons_self d ds)
    have hdslt : ∀ x ∈ ds, x < 10 := fun x hx =>
      msfDigits_lt n x (by rw [hm]; exact List.mem_cons_of_mem d hx)
    simp only [natChars, hm, List.map_cons, List.cons_append, parseNat,
      digit_isDigit d hdlt, if_true, digit_roundtrip d hdlt, List.append_eq]
    rw [parseDigitsAux_spec ds d rest hdslt hr]
    have := msfDigits_val n
    rw [hm] at this
    simp only [List.foldl_cons] at this
    simp only [Nat.zero_mul, Nat.zero_add] at this
    rw [this]

theorem parseInt_intChars :
    ∀ (i : Int) (rest : List Char), headDigit rest = false →
      parseInt (intChars i ++ rest) = some (i, rest) := by
  intro i rest hr
  by_cases hi : i < 0
  · simp only [intChars, if_pos hi, List.cons_append, parseInt, if_pos rfl]
    rw [parseNat_natChars i.natAbs rest hr]
    have hab : (-(i.natAbs : Int)) = i := by omega
    show some (-(i.natAbs : Int), rest) = some (i, rest)
    rw [hab]
  · simp only [intChars, if_neg hi]
    have hne := msfDigits_ne_nil i.natAbs
    rcases hm : msfDigits i.natAbs with _ | ⟨d, ds⟩
    · exact absurd hm hne
    · have hdlt : d < 10 := msfDigits_lt _ d (by rw [hm]; exact List.mem_cons_self d ds)
      have hchars : natChars i.natAbs ++ rest = digitChar d :: (ds.map digitChar ++ rest) := by
        simp [natChars, hm]
      rw [hchars]
      simp only [parseInt, if_neg (digit_ne_minus d hdlt)]
      have : digitChar d :: (ds.map digitChar ++ rest) = natChars i.natAbs ++ rest := by
        simp [natChars, hm]
      rw [this, parseNat_natChars i.natAbs rest hr]
      have hab : ((i.natAbs : Int)) = i := by omega
      show some ((i.natAbs : Int), rest) = some (i, rest)
      rw [hab]

theorem parsePayload_serialize (a e : Int) :
    parsePayloadChars (serializePayload a e) = some ⟨some a, some e⟩ := by
  have h1 : headDigit (',' :: '"' :: 'e' :: 'x' :: 'p' :: '"' :: ':' ::
      (intChars e ++ [rbr])) = false := by
    simp only [headDigit]; decide
  have h2 : headDigit [rbr] = false := by
    simp only [headDigit]; decide
  have hcr : (',' = rbr) = False := by
    simp only [eq_iff_iff, iff_false]
    decide
  simp only [serializePayload, parsePayloadChars, dropLit, eq_self_iff_true, if_true,
    Option.some_bind]
  rw [parseInt_intChars a _ h1]
  simp only [Option.some_bind, hcr, if_false, dropLit, eq_self_iff_true, if_true]
  rw [parseInt_intChars e _ h2]
  simp only [Option.some_bind, eq_self_iff_true, if_true]

theorem splitDotChars_ne_nil : ∀ cs : List Char, splitDotChars cs ≠ [] := by
  intro cs
  induction cs with
  | nil => simp [splitDotChars]
  | cons c cs ih =>
    by_cases hc : c = '.'
    · simp [splitDotChars, hc]
    · simp only [splitDotChars, if_neg hc]
      rcases h : splitDotChars cs with _ | ⟨h1, t⟩
      · simp
      · simp

theorem splitDotChars_append :
    ∀ t x : List Char, splitDotChars (t ++ '.' :: x) = splitDotChars t ++ splitDotChars x := by
  intro t x
  induction t with
  | nil => simp [splitDotChars]
  | cons c t ih =>
    by_cases hc : c = '.'
    · simp only [List.cons_append, splitDotChars, if_pos hc, List.append_eq, ih]
    · simp only [List.cons_append, splitDotChars, if_neg hc, List.append_eq, ih]
      rcases h : splitDotChars t with _ | ⟨h1, t1⟩
      · exact absurd h (splitDotChars_ne_nil t)
      · simp [List.cons_append]

theorem splitDotChars_nodot :
    ∀ cs : List Char, (∀ c ∈ cs, c ≠ '.') → splitDotChars cs = [cs] := by
  intro cs
  induction cs with
  | nil => intro _; rfl
  | cons c cs ih =>
    intro h
    have hc : c ≠ '.' := h c (List.mem_cons_self c cs)
    simp only [splitDotChars, if_neg hc, ih (fun x hx => h x (List.mem_cons_of_mem c hx))]

theorem splitDot_append (p s : String) :
    splitDot (p ++ "." ++ s) = splitDot p ++ splitDot s := by
  simp only [splitDot]
  have hd : (p ++ "." ++ s).data = p.data ++ '.' :: s.data := by
    rw [String.data_append, String.data_append]
    simp
  rw [hd, splitDotChars_append, List.map_append]

theorem splitDot_nodot (s : String) (h : ∀ c ∈ s.data, c ≠ '.') : splitDot s = [s] := by
  simp only [splitDot, splitDotChars_nodot s.data h, List.map_cons, List.map_nil]

theorem b64_idx_char : ∀ i, i < 64 → b64CharIdx (b64Char i) = some i := by decide

theorem b64Char_ne_dot : ∀ i, i < 64 → b64Char i ≠ '.' := by decide

theorem decodeB64_encodeB64 :
    ∀ bs : List Nat, (∀ b ∈ bs, b < 256) → decodeB64 (encodeB64 bs) = some bs
  | [], _ => rfl
  | [b1], h => by
    have hb1 : b1 < 256 := h b1 (by simp)
    have h1 : b1 / 4 < 64 := by omega
    have h2 : b1 % 4 * 16 < 64 := by omega
    simp only [encodeB64, decodeB64, b64_idx_char _ h1, b64_idx_char _ h2, Option.some_bind]
    have hv : b1 / 4 * 4 + b1 % 4 * 16 / 16 = b1 := by omega
    rw [hv]
  | [b1, b2], h => by
    have hb1 : b1 < 256 := h b1 (by simp)
    have hb2 : b2 < 256 := h b2 (by simp)
    have h1 : b1 / 4 < 64 := by omega
    have h2 : b1 % 4 * 16 + b2 / 16 < 64 := by omega
    have h3 : b2 % 16 * 4 < 64 := by omega
    simp only [encodeB64, decodeB64, b64_idx_char _ h1, b64_idx_char _ h2, b64_idx_char _ h3,
      Option.some_bind]
    have hv1 : b1 / 4 * 4 + (b1 % 4 * 16 + b2 / 16) / 16 = b1 := by omega
    have hv2 : (b1 % 4 * 16 + b2 / 16) % 16 * 16 + b2 % 16 * 4 / 4 = b2 := by omega
    rw [hv1, hv2]
  | b1 :: b2 :: b3 :: rest, h => by
    have hb1 : b1 < 256 := h b1 (by simp)
    have hb2 : b2 < 256 := h b2 (by simp)
    have hb3 : b3 < 256 := h b3 (by simp)
    have ih := decodeB64_encodeB64 rest (fun b hb => h b (by simp [hb]))
    have h1 : (b1 * 65536 + b2 * 256 + b3) / 262144 < 64 := by omega
    have h2 : (b1 * 65536 + b2 * 256 + b3) / 4096 % 64 < 64 := by omega
    have h3 : (b1 * 65536 + b2 * 256 + b3) / 64 % 64 < 64 := by omega
    have h4 : (b1 * 65536 + b2 * 256 + b3) % 64 < 64 := by omega
    simp only [encodeB64, decodeB64, b64_idx_char _ h1, b64_idx_char _ h2, b64_idx_char _ h3,
      b64_idx_char _ h4, Option.some_bind, ih]
    have hv1 : (b1 * 65536 + b2 * 256 + b3) / 262144 * 4 +
        (b1 * 65536 + b2 * 256 + b3) / 4096 % 64 / 16 = b1 := by omega
    have hv2 : (b1 * 65536 + b2 * 256 + b3) / 4096 % 64 % 16 * 16 +
        (b1 * 65536 + b2 * 256 + b3) / 64 % 64 / 4 = b2 := by omega
    have hv3 : (b1 * 65536 + b2 * 256 + b3) / 64 % 64 % 4 * 64 +
        (b1 * 65536 + b2 * 256 + b3) % 64 = b3 := by omega
    rw [hv1, hv2, hv3]
    rfl

theorem encodeB64_nodot :
    ∀ bs : List Nat, (∀ b ∈ bs, b < 256) → ∀ c ∈ encodeB64 bs, c ≠ '.'
  | [], _ => by simp [encodeB64]
  | [b1], h => by
    have hb1 : b1 < 256 := h b1 (by simp)
    intro c hc
    simp only [encodeB64, List.mem_cons, List.not_mem_nil, or_false] at hc
    rcases hc with rfl | rfl
    · exact b64Char_ne_dot _ (by omega)
    · exact b64Char_ne_dot _ (by omega)
  | [b1, b2], h => by
    have hb1 : b1 < 256 := h b1 (by simp)
    have hb2 : b2 < 256 := h b2 (by simp)
    intro c hc
    simp only [encodeB64, List.mem_cons, List.not_mem_nil, or_false] at hc
    rcases hc with rfl | rfl | rfl
    · exact b64Char_ne_dot _ (by omega)
    · exact b64Char_ne_dot _ (by omega)
    · exact b64Char_ne_dot _ (by omega)
  | b1 :: b2 :: b3 :: rest, h => by
    have hb1 : b1 < 256 := h b1 (by simp)
    have hb2 : b2 < 256 := h b2 (by simp)
    have hb3 : b3 < 256 := h b3 (by simp)
    have ih := encodeB64_nodot rest (fun b hb => h b (by simp [hb]))
    intro c hc
    simp only [encodeB64, List.mem_cons] at hc
    rcases hc with rfl | rfl | rfl | rfl | hc
    · exact b64Char_ne_dot _ (by omega)
    · exact b64Char_ne_dot _ (by omega)
    · exact b64Char_ne_dot _ (by omega)
    · exact b64Char_ne_dot _ (by omega)
    · exact ih c hc

theorem encodeB64_ne_nil : ∀ (b : Nat) (bs : List Nat), encodeB64 (b :: bs) ≠ [] := by
  intro b bs
  rcases bs with _ | ⟨b2, bs⟩
  · simp [encodeB64]
  · rcases bs with _ | ⟨b3, bs⟩ <;> simp [encodeB64]

theorem natChars_ascii : ∀ (n : Nat) (c : Char), c ∈ natChars n → c.toNat < 128 := by
  intro n c hc
  simp only [natChars, List.mem_map] at hc
  obtain ⟨d, hd, rfl⟩ := hc
  exact digit_ascii d (msfDigits_lt n d hd)

theorem natChars_ne_dot : ∀ (n : Nat) (c : Char), c ∈ natChars n → c ≠ '.' := by
  intro n c hc
  simp only [natChars, List.mem_map] at hc
  obtain ⟨d, hd, rfl⟩ := hc
  exact digit_ne_dot d (msfDigits_lt n d hd)

theorem intChars_ascii : ∀ (i : Int) (c : Char), c ∈ intChars i → c.toNat < 128 := by
  intro i c hc
  simp only [intChars] at hc
  by_cases hi : i < 0
  · rw [if_pos hi] at hc
    rcases List.mem_cons.mp hc with rfl | hc
    · decide
    · exact natChars_ascii _ c hc
  · rw [if_neg hi] at hc
    exact natChars_ascii _ c hc

theorem serialize_ascii : ∀ (a e : Int) (c : Char), c ∈ serializePayload a e → c.toNat < 128 := by
  intro a e c hc
  simp only [serializePayload, List.mem_cons, List.mem_append] at hc
  rcases hc with rfl | rfl | rfl | rfl | rfl | hc | rfl | rfl | rfl | rfl | rfl | rfl | rfl | hc
  · decide
  · decide
  · decide
  · decide
  · decide
  · exact intChars_ascii a c hc
  · decide
  · decide
  · decide
  · decide
  · decide
  · decide
  · decide
  · rcases hc with hc | rfl | hc
    · exact intChars_ascii e c hc
    · decide
    · simp at hc

theorem bytesChars_strBytes : ∀ cs : List Char, bytesChars (strBytes cs) = cs := by
  intro cs
  simp only [bytesChars, strBytes, List.map_map]
  have : (Char.ofNat ∘ Char.toNat) = id := by
    funext c
    exact Char.ofNat_toNat c
  rw [this, List.map_id]

theorem decodePayload_sign (a e : Int) :
    decodePayload (String.mk (encodeB64 (strBytes (serializePayload a e)))) =
      some ⟨some a, some e⟩ := by
  have hb : ∀ b ∈ strBytes (serializePayload a e), b < 256 := by
    intro b hb
    simp only [strBytes, List.mem_map] at hb
    obtain ⟨c, hc, rfl⟩ := hb
    have := serialize_ascii a e c hc
    omega
  simp only [decodePayload]
  rw [decodeB64_encodeB64 _ hb]
  simp only [Option.some_bind]
  rw [bytesChars_strBytes, parsePayload_serialize]

theorem serialize_bytes_lt (a e : Int) : ∀ b ∈ strBytes (serializePayload a e), b < 256 := by
  intro b hb
  simp only [strBytes, List.mem_map] at hb
  obtain ⟨ch, hch, rfl⟩ := hb
  have := serialize_ascii a e ch hch
  omega

theorem signToken_parts (mac : String → String) (hm : MacGood mac) (p : SignPayload) :
    splitDot (signToken mac p) =
      [String.mk (encodeB64 (strBytes (serializePayload p.a p.exp))),
        mac (String.mk (encodeB64 (strBytes (serializePayload p.a p.exp))))] := by
  have hPnodot :
      ∀ c ∈ (String.mk (encodeB64 (strBytes (serializePayload p.a p.exp)))).data, c ≠ '.' := by
    intro c hc
    exact encodeB64_nodot _ (serialize_bytes_lt p.a p.exp) c hc
  have hs : signToken mac p =
      String.mk (encodeB64 (strBytes (serializePayload p.a p.exp))) ++ "." ++
        mac (String.mk (encodeB64 (strBytes (serializePayload p.a p.exp)))) := rfl
  rw [hs, splitDot_append, splitDot_nodot _ hPnodot,
    splitDot_nodot _ (hm (String.mk (encodeB64 (strBytes (serializePayload p.a p.exp))))).2]
  rfl

theorem mk_ne_empty_of_ne_nil (l : List Char) (h : l ≠ []) : String.mk l ≠ "" := by
  intro he
  have := congrArg String.data he
  simp only at this
  exact h this

theorem verify_signToken (mac : String → String) (hm : MacGood mac) (a e now : Int) :
    verifyToken mac (signToken mac ⟨a, e⟩) now =
      if a = 1 then (if e = 0 then false else if e < now then false else true)
      else false := by
  have hparts := signToken_parts mac hm ⟨a, e⟩
  have hserial : serializePayload (SignPayload.mk a e).a (SignPayload.mk a e).exp =
      serializePayload a e := rfl
  rw [hserial] at hparts
  have hPne : String.mk (encodeB64 (strBytes (serializePayload a e))) ≠ "" := by
    apply mk_ne_empty_of_ne_nil
    have : strBytes (serializePayload a e) =
        (lbr).toNat :: strBytes ('"' :: 'a' :: '"' :: ':' ::
          (intChars a ++ ',' :: '"' :: 'e' :: 'x' :: 'p' :: '"' :: ':' ::
            (intChars e ++ [rbr]))) := rfl
    rw [this]
    exact encodeB64_ne_nil _ _
  have hSne : mac (String.mk (encodeB64 (strBytes (serializePayload a e)))) ≠ "" :=
    (hm _).1
  simp only [verifyToken, hparts, if_neg hPne, if_neg hSne, eq_self_iff_true, if_true,
    decodePayload_sign a e, Option.some.injEq]

theorem macModel_good : MacGood macModel := by
  intro s
  refine ⟨?_, ?_⟩
  · apply mk_ne_empty_of_ne_nil
    simp
  · intro c hc
    have hd : (macModel s).data =
        's' :: 'i' :: 'g' ::
          natChars (s.data.foldl (fun h c => (h * 31 + c.toNat) % 4294967296) 7) := rfl
    rw [hd] at hc
    simp only [List.mem_cons] at hc
    rcases hc with rfl | rfl | rfl | hc
    · decide
    · decide
    · decide
    · exact natChars_ne_dot _ c hc

/-- C1, counterexample: a token issued at time 0 carries
`exp = 604800000`, and at the verification instant exactly equal to
`exp` the code still accepts it (`payload.exp < Date.now()` is a strict
test), where the claim demands rejection at every instant at or after
`exp`. -/
theorem claim1_counterexample :
    verifyToken macModel (signToken macModel ⟨1, 604800000⟩) 604800000 = true := by decide

/-- C1, amended: a token issued by login at time `t` carries
`exp = t + 7*24*60*60*1000`, and `verifyToken` accepts it exactly at the
instants `now ≤ exp` — up to and including `exp` — and rejects it
strictly after `exp`. -/
theorem claim1_issue_verify (mac : String → String) (hm : MacGood mac) (t now : Int)
    (ht : 0 ≤ t) :
    adminLogin mac (JSVal.str ADMIN_USER) (JSVal.str ADMIN_PASSWORD) t =
      LoginResp.ok (signToken mac ⟨1, t + 7 * 24 * 60 * 60 * 1000⟩) ∧
    verifyToken mac (signToken mac ⟨1, t + 7 * 24 * 60 * 60 * 1000⟩) now =
      decide (now ≤ t + 7 * 24 * 60 * 60 * 1000) := by
  constructor
  · simp [adminLogin]
  · rw [verify_signToken mac hm 1 (t + 7 * 24 * 60 * 60 * 1000) now]
    have h0 : ¬ (t + 7 * 24 * 60 * 60 * 1000 = 0) := by omega
    rw [if_pos rfl, if_neg h0]
    by_cases hlt : t + 7 * 24 * 60 * 60 * 1000 < now
    · rw [if_pos hlt]
      symm
      simp only [decide_eq_false_iff_not]
      omega
    · rw [if_neg hlt]
      symm
      simp only [decide_eq_true_eq]
      omega

/-- C1 witness: at `t = 0` a freshly issued token verifies `false` at
instant 604800001, one millisecond past expiry, matching the amended
boundary. -/
theorem claim1_witness :
    MacGood macModel ∧ (0 : Int) ≤ 0 ∧
      (adminLogin macModel (JSVal.str ADMIN_USER) (JSVal.str ADMIN_PASSWORD) 0 =
          LoginResp.ok (signToken macModel ⟨1, 0 + 7 * 24 * 60 * 60 * 1000⟩) ∧
        verifyToken macModel (signToken macModel ⟨1, 0 + 7 * 24 * 60 * 60 * 1000⟩) 604800001 =
          decide ((604800001 : Int) ≤ 0 + 7 * 24 * 60 * 60 * 1000)) :=
  ⟨macModel_good, by decide,
    claim1_issue_verify macModel macModel_good 0 604800001 (by decide)⟩

/-- Does `token.split(".")` fail to produce two non-empty leading
parts?  (`verifyToken` only ever looks at the first two.) -/
def badParts (token : String) : Bool :=
  match splitDot token with
  | p :: s :: _ => p == "" || s == ""
  | _ => true

/-- C2, counterexample: appending an extra `.`-separated segment to a
valid token leaves it valid — the destructuring `[payloadB64, sig]`
silently ignores every segment beyond the second. -/
theorem claim2_counterexample :
    verifyToken macModel (signToken macModel ⟨1, 604800000⟩ ++ ".x") 5 = true := by decide

/-- C2, amended: `verifyToken` returns false whenever the split does not
yield two non-empty leading parts (in particular on the empty string),
but segments beyond the second are ignored: appending an extra
`.`-separated segment never changes the verdict of a token that already
has two parts. -/
theorem claim2_split_shape :
    (∀ (mac : String → String) (token : String) (now : Int),
        badParts token = true → verifyToken mac token now = false) ∧
    (∀ (mac : String → String) (token x : String) (now : Int),
        2 ≤ (splitDot token).length →
        verifyToken mac (token ++ "." ++ x) now = verifyToken mac token now) := by
  constructor
  · intro mac token now hb
    rcases h : splitDot token with _ | ⟨p, _ | ⟨s, rest⟩⟩
    · simp [verifyToken, h]
    · simp [verifyToken, h]
    · simp only [badParts, h, Bool.or_eq_true, beq_iff_eq] at hb
      simp only [verifyToken, h]
      by_cases hp : p = ""
      · rw [if_pos hp]
      · have hs : s = "" := by
          rcases hb with hb | hb
          · exact absurd hb hp
          · exact hb
        rw [if_neg hp, if_pos hs]
  · intro mac token x now hlen
    rcases h : splitDot token with _ | ⟨p, _ | ⟨s, rest⟩⟩
    · simp [h] at hlen
    · simp [h] at hlen
    · have happ : splitDot (token ++ "." ++ x) = p :: s :: (rest ++ splitDot x) := by
        rw [splitDot_append, h]
        simp
      simp only [verifyToken, happ, h]

/-- C2 witness: the empty token is rejected, and appending a segment to
the two-part token `"ab.cd"` does not change its verdict. -/
theorem claim2_witness :
    badParts "" = true ∧ verifyToken macModel "" 0 = false ∧
      2 ≤ (splitDot "ab.cd").length ∧
      verifyToken macModel ("ab.cd" ++ "." ++ "x") 0 = verifyToken macModel "ab.cd" 0 :=
  ⟨by decide, claim2_split_shape.1 macModel "" 0 (by decide),
    by decide, claim2_split_shape.2 macModel "ab.cd" "x" 0 (by decide)⟩

/-- C9: `verifyToken` is a total boolean function (the embedding returns
a `Bool` on every input; every exception of the original is caught and
modelled as a failing branch), and it accepts exactly when the split
yields two non-empty leading parts, the MAC matches, the payload decodes,
the role marker is 1, and `exp` is present, truthy and not in the past —
so any malformed encoding, unparsable payload, wrong role marker or
missing `exp` yields `false`, never an error. -/
theorem claim9_verify_total (mac : String → String) (token : String) (now : Int) :
    verifyToken mac token now = true ↔
      ∃ p s rest, splitDot token = p :: s :: rest ∧ p ≠ "" ∧ s ≠ "" ∧ mac p = s ∧
        ∃ pl, decodePayload p = some pl ∧ pl.a = some 1 ∧
          ∃ e, pl.exp = some e ∧ e ≠ 0 ∧ ¬ e < now := by
  constructor
  · intro hv
    rcases h : splitDot token with _ | ⟨p, _ | ⟨s, rest⟩⟩
    · simp [verifyToken, h] at hv
    · simp [verifyToken, h] at hv
    · simp only [verifyToken, h] at hv
      by_cases hp : p = ""
      · rw [if_pos hp] at hv
        exact absurd hv (by simp)
      by_cases hs : s = ""
      · rw [if_neg hp, if_pos hs] at hv
        exact absurd hv (by simp)
      by_cases hmac : mac p = s
      · rw [if_neg hp, if_neg hs, if_pos hmac] at hv
        rcases hd : decodePayload p with _ | pl
        · simp only [hd] at hv
          exact absurd hv (by simp)
        · simp only [hd] at hv
          by_cases ha : pl.a = some 1
          · rw [if_pos ha] at hv
            rcases he : pl.exp with _ | e
            · simp only [he] at hv
              exact absurd hv (by simp)
            · simp only [he] at hv
              by_cases he0 : e = 0
              · rw [if_pos he0] at hv
                exact absurd hv (by simp)
              by_cases hlt : e < now
              · rw [if_neg he0, if_pos hlt] at hv
                exact absurd hv (by simp)
              · exact ⟨p, s, rest, rfl, hp, hs, hmac, pl, hd, ha, e, he, he0, hlt⟩
          · rw [if_neg ha] at hv
            exact absurd hv (by simp)
      · rw [if_neg hp, if_neg hs, if_neg hmac] at hv
        exact absurd hv (by simp)
  · rintro ⟨p, s, rest, h, hp, hs, hmac, pl, hd, ha, e, he, he0, hlt⟩
    simp only [verifyToken, h, if_neg hp, if_neg hs, if_pos hmac, hd, ha, he,
      eq_self_iff_true, if_true, if_neg he0, if_neg hlt]

/-- C4: a privileged request whose Authorization header is absent, does
not start with the case-sensitive literal `"Bearer "`, or carries a
token `verifyToken` rejects, is answered 401 and the guarded handler is
never executed: the stored state is returned unchanged. -/
theorem claim4_admin_gate {σ : Type} (mac : String → String) (auth : Option String)
    (now : Int) (handler : σ → σ × Resp) (s : σ)
    (h : auth = none ∨ ∀ a, auth = some a →
      strLeadsWith a "Bearer " = false ∨ verifyToken mac (strDropChars a 7) now = false) :
    runGuarded mac auth now handler s = (s, Resp.error 401) := by
  have hadm : requireAdmin mac auth now = false := by
    rcases auth with _ | a
    · rfl
    · rcases h with h | h
      · exact absurd h (by simp)
      · rcases h a rfl with h | h
        · simp [requireAdmin, bearerToken, h]
        · simp only [requireAdmin, bearerToken]
          cases hsw : strLeadsWith a "Bearer " with
          | false => simp
          | true => simp [h]
  simp [runGuarded, hadm]

/-- C4 witness: with no Authorization header the delete-class handler is
never run on a store holding one class. -/
theorem claim4_witness :
    runGuarded macModel none 0 (fun st : MemState => memDeleteClass "c1" st)
        ⟨[⟨"c1", "5A"⟩], []⟩ =
      (⟨[⟨"c1", "5A"⟩], []⟩, Resp.error 401) :=
  claim4_admin_gate macModel none 0 _ _ (Or.inl rfl)

/-- Is the body value a non-empty string?  (What `POST /api/classes`
requires of `name`.) -/
def isNonemptyStr : JSVal → Bool
  | JSVal.str s => s != ""
  | _ => false

/-- C6, counterexample: a whitespace-only name `" "` is truthy and a
string, so the handler accepts it and creates a class whose stored name
is the empty string — contradicting the claim that every created class
has a non-empty name. -/
theorem claim6_counterexample :
    memCreateClass (JSVal.str " ") "f1" ⟨[], []⟩ =
      (⟨[⟨"f1", ""⟩], []⟩, Resp.classCreated "f1" "") := by decide

/-- C6, amended: `createClass` rejects exactly the empty-string and
non-string names with a 400 validation failure (no class created), and
every successfully created class stores the input name trimmed of
leading/trailing whitespace — which is empty when the input was
whitespace-only. -/
theorem claim6_create_class :
    (∀ (v : JSVal) (fid : String) (st : MemState), isNonemptyStr v = false →
        memCreateClass v fid st = (st, Resp.error 400)) ∧
    (∀ (s : String) (fid : String) (st : MemState), s ≠ "" →
        memCreateClass (JSVal.str s) fid st =
          ({ st with classes := st.classes ++ [⟨fid, jsTrim s⟩] },
            Resp.classCreated fid (jsTrim s))) := by
  constructor
  · intro v fid st hv
    cases v with
    | str s =>
      have hs : s = "" := by simpa [isNonemptyStr] using hv
      simp [memCreateClass, hs]
    | undef => rfl
    | null => rfl
    | bool b => rfl
    | num n => rfl
  · intro s fid st hs
    simp [memCreateClass, hs]

/-- C6 witness: a null name is rejected without touching the store, and
the name `" 5A "` is stored as its trimmed form `"5A"`. -/
theorem claim6_witness :
    isNonemptyStr JSVal.null = false ∧
      memCreateClass JSVal.null "f1" ⟨[], []⟩ = (⟨[], []⟩, Resp.error 400) ∧
      (" 5A " : String) ≠ "" ∧
      memCreateClass (JSVal.str " 5A ") "f1" ⟨[], []⟩ =
        (⟨[⟨"f1", jsTrim " 5A "⟩], []⟩, Resp.classCreated "f1" (jsTrim " 5A ")) :=
  ⟨by decide, claim6_create_class.1 JSVal.null "f1" ⟨[], []⟩ (by decide),
    by decide, claim6_create_class.2 " 5A " "f1" ⟨[], []⟩ (by decide)⟩

/-- C5, counterexample: on the durable backend, `POST /api/students`
with the well-formed but nonexistent classId
`"aaaaaaaaaaaaaaaaaaaaaaaa"` (the store holds no classes at all)
succeeds and inserts the student — no existence check is made, where
the claim demands a validation failure and no student created. -/
theorem claim5_counterexample :
    durCreateStudent (JSVal.str "Ali") (JSVal.str "aaaaaaaaaaaaaaaaaaaaaaaa") "f1" ⟨[], []⟩ =
      (⟨[], [⟨"f1", "Ali", 0, "aaaaaaaaaaaaaaaaaaaaaaaa"⟩]⟩,
        Resp.studentCreated "f1" "Ali" "aaaaaaaaaaaaaaaaaaaaaaaa" 0) := by decide

/-- C5, amended: the in-memory backend rejects a classId that matches no
existing class with a 400 and creates nothing, and on success stores the
student with `coins = 0` and the given classId; the durable backend
checks only that the classId parses as an ObjectId — any 24-hex-digit
classId succeeds with `coins = 0` and the given classId, whether or not
such a class exists. -/
theorem claim5_create_student :
    (∀ (nv cv : JSVal) (fid : String) (st : MemState),
        jsTruthy nv = true → jsTruthy cv = true →
        (st.classes.any fun c => c.id = jsToString cv) = false →
        memCreateStudent nv cv fid st = (st, Resp.error 400)) ∧
    (∀ (nv cv : JSVal) (fid : String) (st : MemState),
        jsTruthy nv = true → jsTruthy cv = true →
        (st.classes.any fun c => c.id = jsToString cv) = true →
        memCreateStudent nv cv fid st =
          ({ st with students := st.students ++
              [⟨fid, jsTrim (jsToString nv), 0, jsToString cv⟩] },
            Resp.studentCreated fid (jsTrim (jsToString nv)) (jsToString cv) 0)) ∧
    (∀ (n cid fid : String) (st : DurState),
        n ≠ "" → isValidObjectId cid = true →
        durCreateStudent (JSVal.str n) (JSVal.str cid) fid st =
          ({ st with students := st.students ++ [⟨fid, jsTrim n, 0, cid⟩] },
            Resp.studentCreated fid (jsTrim n) cid 0)) := by
  refine ⟨?_, ?_, ?_⟩
  · intro nv cv fid st hn hc hex
    simp [memCreateStudent, hn, hc, hex]
  · intro nv cv fid st hn hc hex
    simp [memCreateStudent, hn, hc, hex]
  · intro n cid fid st hn hv
    have hcid : cid ≠ "" := by
      intro hE
      subst hE
      simp [isValidObjectId] at hv
    simp [durCreateStudent, jsTruthy, hn, hcid, hv, jsToString]

/-- C5 witness: the in-memory store with one class `"c1"` rejects
classId `"c9"` untouched, accepts classId `"c1"` with zero coins, and
the empty durable store accepts the hex classId. -/
theorem claim5_witness :
    memCreateStudent (JSVal.str "Ali") (JSVal.str "c9") "f1" ⟨[⟨"c1", "5A"⟩], []⟩ =
        (⟨[⟨"c1", "5A"⟩], []⟩, Resp.error 400) ∧
      memCreateStudent (JSVal.str "Ali") (JSVal.str "c1") "f1" ⟨[⟨"c1", "5A"⟩], []⟩ =
        (⟨[⟨"c1", "5A"⟩], [⟨"f1", jsTrim (jsToString (JSVal.str "Ali")), 0,
            jsToString (JSVal.str "c1")⟩]⟩,
          Resp.studentCreated "f1" (jsTrim (jsToString (JSVal.str "Ali")))
            (jsToString (JSVal.str "c1")) 0) ∧
      durCreateStudent (JSVal.str "Ali") (JSVal.str "bbbbbbbbbbbbbbbbbbbbbbbb") "f2" ⟨[], []⟩ =
        (⟨[], [⟨"f2", jsTrim "Ali", 0, "bbbbbbbbbbbbbbbbbbbbbbbb"⟩]⟩,
          Resp.studentCreated "f2" (jsTrim "Ali") "bbbbbbbbbbbbbbbbbbbbbbbb" 0) :=
  ⟨claim5_create_student.1 (JSVal.str "Ali") (JSVal.str "c9") "f1" ⟨[⟨"c1", "5A"⟩], []⟩
      (by decide) (by decide) (by decide),
    claim5_create_student.2.1 (JSVal.str "Ali") (JSVal.str "c1") "f1" ⟨[⟨"c1", "5A"⟩], []⟩
      (by decide) (by decide) (by decide),
    claim5_create_student.2.2 "Ali" "bbbbbbbbbbbbbbbbbbbbbbbb" "f2" ⟨[], []⟩
      (by decide) (by decide)⟩

/-- C8, counterexample: the amount `null` is not a number, but
`Number(null)` is 0, not NaN, so the handler accepts it, applies a zero
delta and answers with the (unchanged) student instead of the claimed
400 validation failure. -/
theorem claim8_counterexample :
    memApplyCoins JSVal.null "s1" ⟨[⟨"c1", "5A"⟩], [⟨"s1", "Ali", 5, "c1"⟩]⟩ =
      (⟨[⟨"c1", "5A"⟩], [⟨"s1", "Ali", 5, "c1"⟩]⟩, Resp.studentUpdated "s1" "Ali" 5 "c1") := by
  decide

/-- C8, amended: the coins handler rejects with 400 (store untouched)
exactly the amounts whose `Number(...)` coercion is NaN — `undefined`
and non-numeric strings — while `null` and booleans coerce to 0 and 1
and are applied; when the amount is numeric and no student matches, it
answers 404 with no balance change. -/
theorem claim8_amount_validation :
    (∀ (v : JSVal) (sid : String) (st : MemState), jsToNumber v = none →
        memApplyCoins v sid st = (st, Resp.error 400)) ∧
    (∀ (v : JSVal) (q : Int) (sid : String) (st : MemState), jsToNumber v = some q →
        st.students.find? (fun s => s.id = sid) = none →
        memApplyCoins v sid st = (st, Resp.error 404)) := by
  constructor
  · intro v sid st hv
    simp [memApplyCoins, hv]
  · intro v q sid st hv hf
    simp [memApplyCoins, hv, hf]

/-- C8 witness: a missing amount is rejected with 400, and a numeric
amount aimed at an unknown student id is rejected with 404, both leaving
the store unchanged. -/
theorem claim8_witness :
    memApplyCoins JSVal.undef "s1" ⟨[], [⟨"s1", "Ali", 5, "c1"⟩]⟩ =
        (⟨[], [⟨"s1", "Ali", 5, "c1"⟩]⟩, Resp.error 400) ∧
      memApplyCoins (JSVal.num 7) "zz" ⟨[], [⟨"s1", "Ali", 5, "c1"⟩]⟩ =
        (⟨[], [⟨"s1", "Ali", 5, "c1"⟩]⟩, Resp.error 404) :=
  ⟨claim8_amount_validation.1 JSVal.undef "s1" ⟨[], [⟨"s1", "Ali", 5, "c1"⟩]⟩ (by decide),
    claim8_amount_validation.2 (JSVal.num 7) 7 "zz" ⟨[], [⟨"s1", "Ali", 5, "c1"⟩]⟩
      (by decide) (by decide)⟩

/-- C10: on the durable backend, `deleteClass` with a well-formed id
always runs `deleteMany` on the students of that class before
`deleteOne` on the class, so even when the class does not exist — the
404 path — the students of that id are already gone: the not-found
outcome is not side-effect-free. -/
theorem claim10_cascade_before_delete (id : String) (st : DurState)
    (h : isValidObjectId id = true) :
    (durDeleteClass id st).1.students = st.students.filter (fun s => s.classId ≠ id) ∧
    ((st.classes.any fun c => c.oid = id) = false →
      durDeleteClass id st =
        ({ st with students := st.students.filter (fun s => s.classId ≠ id) },
          Resp.error 404)) := by
  constructor
  · by_cases hany : (st.classes.any fun c => c.oid = id) = true
    · simp [durDeleteClass, h, hany]
    · simp only [Bool.not_eq_true] at hany
      simp [durDeleteClass, h, hany]
  · intro hnone
    simp [durDeleteClass, h, hnone]

/-- C10 witness: deleting the hex class id from a durable store that has
no such class but one student referencing it answers 404 — with the
student already removed. -/
theorem claim10_witness :
    isValidObjectId "cccccccccccccccccccccccc" = true ∧
      durDeleteClass "cccccccccccccccccccccccc"
          ⟨[], [⟨"f1", "Ali", 3, "cccccccccccccccccccccccc"⟩]⟩ =
        (⟨[], []⟩, Resp.error 404) := by
  refine ⟨by decide, ?_⟩
  have h := (claim10_cascade_before_delete "cccccccccccccccccccccccc"
    ⟨[], [⟨"f1", "Ali", 3, "cccccccccccccccccccccccc"⟩]⟩ (by decide)).2 (by decide)
  rw [h]
  decide

theorem find?_updateFirst (sid : String) (f : MemStudent → MemStudent)
    (hf : ∀ x, (f x).id = x.id) :
    ∀ l : List MemStudent,
      List.find? (fun x => x.id = sid) (updateFirst (fun x => x.id = sid) f l) =
        (List.find? (fun x => x.id = sid) l).map f := by
  intro l
  induction l with
  | nil => rfl
  | cons x xs ih =>
    by_cases hx : x.id = sid
    · have hfx : ((f x).id = sid) := by rw [hf x]; exact hx
      simp [updateFirst, List.find?, hx, hfx]
    · simp [updateFirst, List.find?, hx, ih]

/-- C7: applying a coin delta `a` and then a delta `b` to the same
student leaves the balance at `initial + a + b`; deltas are plain
integer addition, may be negative, and no floor or ceiling is ever
applied. -/
theorem claim7_delta_twice (a b : Int) (sid : String) (st : MemState) (s0 : MemStudent)
    (h : st.students.find? (fun x => x.id = sid) = some s0) :
    ∃ st1 st2 : MemState,
      memApplyCoins (JSVal.num a) sid st =
        (st1, Resp.studentUpdated s0.id s0.name (s0.coins + a) s0.classId) ∧
      memApplyCoins (JSVal.num b) sid st1 =
        (st2, Resp.studentUpdated s0.id s0.name (s0.coins + a + b) s0.classId) ∧
      st2.students.find? (fun x => x.id = sid) =
        some { s0 with coins := s0.coins + a + b } := by
  have hid : ∀ x : MemStudent, ({ x with coins := x.coins + a } : MemStudent).id = x.id :=
    fun _ => rfl
  have hid2 : ∀ x : MemStudent, ({ x with coins := x.coins + b } : MemStudent).id = x.id :=
    fun _ => rfl
  have h1 : (updateFirst (fun x => x.id = sid) (fun x => { x with coins := x.coins + a })
      st.students).find? (fun x => x.id = sid) = some { s0 with coins := s0.coins + a } := by
    rw [find?_updateFirst sid _ hid st.students, h]
    rfl
  refine ⟨{ st with students := (updateFirst (fun x => x.id = sid)
      (fun x => { x with coins := x.coins + a }) st.students) },
    { st with students := (updateFirst (fun x => x.id = sid)
        (fun x => { x with coins := x.coins + b })
        (updateFirst (fun x => x.id = sid)
          (fun x => { x with coins := x.coins + a }) st.students)) }, ?_, ?_, ?_⟩
  · simp [memApplyCoins, jsToNumber, h]
  · simp [memApplyCoins, jsToNumber, h1]
  · rw [find?_updateFirst sid _ hid2, h1]
    rfl

/-- C7 witness: the student starting at 5 coins ends at 12 after deltas
+10 and -3 (5 + 10 - 3), the negative delta applied without any floor. -/
theorem claim7_witness :
    ∃ st1 st2 : MemState,
      memApplyCoins (JSVal.num 10) "s1" ⟨[⟨"c1", "5A"⟩], [⟨"s1", "Ali", 5, "c1"⟩]⟩ =
        (st1, Resp.studentUpdated "s1" "Ali" 15 "c1") ∧
      memApplyCoins (JSVal.num (-3)) "s1" st1 =
        (st2, Resp.studentUpdated "s1" "Ali" 12 "c1") ∧
      st2.students.find? (fun x => x.id = "s1") = some ⟨"s1", "Ali", 12, "c1"⟩ :=
  claim7_delta_twice 10 (-3) "s1" ⟨[⟨"c1", "5A"⟩], [⟨"s1", "Ali", 5, "c1"⟩]⟩
    ⟨"s1", "Ali", 5, "c1"⟩ (by decide)

theorem mem_of_mem_removeFirst {α : Type} (p : α → Bool) :
    ∀ (l : List α) (a : α), a ∈ removeFirst p l → a ∈ l := by
  intro l
  induction l with
  | nil => intro a h; simp [removeFirst] at h
  | cons x xs ih =>
    intro a h
    by_cases hx : p x = true
    · rw [removeFirst, if_pos hx] at h
      exact List.mem_cons_of_mem x h
    · rw [removeFirst, if_neg hx] at h
      rcases List.mem_cons.mp h with rfl | h
      · exact List.mem_cons_self a xs
      · exact List.mem_cons_of_mem x (ih a h)

theorem mem_removeFirst_of_not {α : Type} (p : α → Bool) :
    ∀ (l : List α) (a : α), a ∈ l → p a = false → a ∈ removeFirst p l := by
  intro l
  induction l with
  | nil => intro a h; simp at h
  | cons x xs ih =>
    intro a h hpa
    by_cases hx : p x = true
    · rw [removeFirst, if_pos hx]
      rcases List.mem_cons.mp h with rfl | h
      · rw [hpa] at hx
        exact absurd hx (by simp)
      · exact h
    · rw [removeFirst, if_neg hx]
      rcases List.mem_cons.mp h with rfl | h
      · exact List.mem_cons_self a _
      · exact List.mem_cons_of_mem x (ih a h hpa)

theorem mem_updateFirst {α : Type} (p : α → Bool) (f : α → α) :
    ∀ (l : List α) (a : α), a ∈ updateFirst p f l → a ∈ l ∨ ∃ b, b ∈ l ∧ a = f b := by
  intro l
  induction l with
  | nil => intro a h; simp [updateFirst] at h
  | cons x xs ih =>
    intro a h
    by_cases hx : p x = true
    · rw [updateFirst, if_pos hx] at h
      rcases List.mem_cons.mp h with rfl | h
      · exact Or.inr ⟨x, List.mem_cons_self x xs, rfl⟩
      · exact Or.inl (List.mem_cons_of_mem x h)
    · rw [updateFirst, if_neg hx] at h
      rcases List.mem_cons.mp h with rfl | h
      · exact Or.inl (List.mem_cons_self a xs)
      · rcases ih a h with h | ⟨b, hb, rfl⟩
        · exact Or.inl (List.mem_cons_of_mem x h)
        · exact Or.inr ⟨b, List.mem_cons_of_mem x hb, rfl⟩

theorem removeFirst_key_gone (id : String) :
    ∀ l : List MemClass, (l.map MemClass.id).Nodup →
      ∀ c ∈ removeFirst (fun c => c.id = id) l, c.id ≠ id := by
  intro l
  induction l with
  | nil => intro _ c hc; simp [removeFirst] at hc
  | cons x xs ih =>
    intro hnd c hc
    simp only [List.map_cons, List.nodup_cons] at hnd
    obtain ⟨hx_not, hnd2⟩ := hnd
    by_cases hx : x.id = id
    · rw [removeFirst, if_pos (decide_eq_true hx)] at hc
      intro hcid
      exact hx_not (by
        rw [hx, ← hcid]
        exact List.mem_map_of_mem MemClass.id hc)
    · rw [removeFirst, if_neg (by simpa using hx)] at hc
      rcases List.mem_cons.mp hc with rfl | hc
      · exact hx
      · exact ih hnd2 c hc

/-- C3: every in-memory store operation preserves the invariant that
each stored student's `classId` references a currently existing class;
and on a store whose class ids are distinct (they are freshly generated
ObjectIds), a successful `deleteClass` leaves `listStudentsByClass`
empty for that id and removes the class from `listClasses` — no
orphaned student survives a class deletion. -/
theorem claim3_refs_invariant :
    (∀ (v : JSVal) (fid : String) (st : MemState), StudentRefsOK st →
        StudentRefsOK (memCreateClass v fid st).1) ∧
    (∀ (id : String) (st : MemState), StudentRefsOK st →
        StudentRefsOK (memDeleteClass id st).1) ∧
    (∀ (nv cv : JSVal) (fid : String) (st : MemState), StudentRefsOK st →
        StudentRefsOK (memCreateStudent nv cv fid st).1) ∧
    (∀ (id : String) (st : MemState), StudentRefsOK st →
        StudentRefsOK (memDeleteStudent id st).1) ∧
    (∀ (v : JSVal) (id : String) (st : MemState), StudentRefsOK st →
        StudentRefsOK (memApplyCoins v id st).1) ∧
    (∀ (id : String) (st : MemState), (st.classes.map MemClass.id).Nodup →
        (memDeleteClass id st).2 = Resp.done →
        memListStudentsByClass (memDeleteClass id st).1 id = [] ∧
        ∀ pr ∈ memListClasses (memDeleteClass id st).1, pr.1 ≠ id) := by
  refine ⟨?_, ?_, ?_, ?_, ?_, ?_⟩
  · intro v fid st hrefs
    cases v with
    | str s =>
      by_cases hs : s = ""
      · simpa [memCreateClass, hs] using hrefs
      · have hstep : (memCreateClass (JSVal.str s) fid st).1 =
            { st with classes := (st.classes ++ [⟨fid, jsTrim s⟩]) } := by
          simp [memCreateClass, hs]
        rw [hstep]
        intro x hx
        obtain ⟨c, hc, hcid⟩ := hrefs x hx
        exact ⟨c, List.mem_append_left _ hc, hcid⟩
    | undef => exact hrefs
    | null => exact hrefs
    | bool b => exact hrefs
    | num n => exact hrefs
  · intro id st hrefs
    by_cases hany : (st.classes.any fun c => c.id = id) = true
    · have hstep : (memDeleteClass id st).1 =
          ⟨removeFirst (fun c => c.id = id) st.classes,
            st.students.filter fun s => s.classId ≠ id⟩ := by
        simp [memDeleteClass, hany]
      rw [hstep]
      intro x hx
      have hx2 : x ∈ st.students.filter fun s => s.classId ≠ id := hx
      simp only [List.mem_filter] at hx2
      obtain ⟨hx1, hxne⟩ := hx2
      obtain ⟨c, hc, hcid⟩ := hrefs x hx1
      have hxid : x.classId ≠ id := by simpa using hxne
      refine ⟨c, mem_removeFirst_of_not _ _ _ hc ?_, hcid⟩
      simp [hcid, hxid]
    · simpa [memDeleteClass, hany] using hrefs
  · intro nv cv fid st hrefs
    cases hn : jsTruthy nv with
    | false => simpa [memCreateStudent, hn] using hrefs
    | true =>
      cases hc : jsTruthy cv with
      | false => simpa [memCreateStudent, hn, hc] using hrefs
      | true =>
        by_cases hex : (st.classes.any fun c => c.id = jsToString cv) = true
        · have hstep : (memCreateStudent nv cv fid st).1 =
              { st with students := (st.students ++
                [⟨fid, jsTrim (jsToString nv), 0, jsToString cv⟩]) } := by
            simp [memCreateStudent, hn, hc, hex]
          rw [hstep]
          intro x hx
          have hx2 : x ∈ st.students ∨
              x ∈ [(⟨fid, jsTrim (jsToString nv), 0, jsToString cv⟩ : MemStudent)] := by
            simpa using hx
          rcases hx2 with hx2 | hx2
          · obtain ⟨c, hcm, hcid⟩ := hrefs x hx2
            exact ⟨c, hcm, hcid⟩
          · rcases List.mem_singleton.mp hx2 with rfl
            obtain ⟨c, hcm, hcid⟩ := List.any_eq_true.mp hex
            exact ⟨c, hcm, by simpa using hcid⟩
        · simpa [memCreateStudent, hn, hc, hex] using hrefs
  · intro id st hrefs
    by_cases hany : (st.students.any fun s => s.id = id) = true
    · have hstep : (memDeleteStudent id st).1 =
          { st with students := (removeFirst (fun s => s.id = id) st.students) } := by
        simp [memDeleteStudent, hany]
      rw [hstep]
      intro x hx
      exact hrefs x (mem_of_mem_removeFirst _ _ _ hx)
    · simpa [memDeleteStudent, hany] using hrefs
  · intro v id st hrefs
    rcases hnum : jsToNumber v with _ | q
    · simpa [memApplyCoins, hnum] using hrefs
    · rcases hfind : st.students.find? (fun s => s.id = id) with _ | s
      · simpa [memApplyCoins, hnum, hfind] using hrefs
      · have hstep : (memApplyCoins v id st).1 =
            { st with students := (updateFirst (fun x => x.id = id)
              (fun x => { x with coins := x.coins + q }) st.students) } := by
          simp [memApplyCoins, hnum, hfind]
        rw [hstep]
        intro x hx
        rcases mem_updateFirst _ _ _ x hx with hm | ⟨b, hb, rfl⟩
        · exact hrefs x hm
        · obtain ⟨c, hcm, hcid⟩ := hrefs b hb
          exact ⟨c, hcm, hcid⟩
  · intro id st hnd hsucc
    by_cases hany : (st.classes.any fun c => c.id = id) = true
    · have hstep : memDeleteClass id st =
          (⟨removeFirst (fun c => c.id = id) st.classes,
            st.students.filter fun s => s.classId ≠ id⟩, Resp.done) := by
        simp [memDeleteClass, hany]
      constructor
      · rw [hstep]
        have hnil : ((st.students.filter fun s => s.classId ≠ id).filter
            fun s => s.classId = id) = [] := by
          apply List.filter_eq_nil_iff.mpr
          intro a ha
          simp only [List.mem_filter] at ha
          obtain ⟨_, ha2⟩ := ha
          simpa using ha2
        show sortByCoinsDesc ((st.students.filter fun s => s.classId ≠ id).filter
          fun s => s.classId = id) = []
        rw [hnil]
        rfl
      · rw [hstep]
        intro pr hpr
        simp only [memListClasses, List.mem_map] at hpr
        obtain ⟨c, hc, rfl⟩ := hpr
        exact removeFirst_key_gone id st.classes hnd c hc
    · exfalso
      have hfail : memDeleteClass id st = (st, Resp.error 404) := by
        simp [memDeleteClass, hany]
      rw [hfail] at hsucc
      simp at hsucc

instance (st : MemState) : Decidable (StudentRefsOK st) := by
  unfold StudentRefsOK
  infer_instance

/-- C3 witness: the six conjuncts applied to the concrete store holding
class `"c1"` and student `"s1"` of that class. -/
theorem claim3_witness :
    StudentRefsOK (memCreateClass (JSVal.str "6B") "c2"
        ⟨[⟨"c1", "5A"⟩], [⟨"s1", "Ali", 5, "c1"⟩]⟩).1 ∧
    StudentRefsOK (memDeleteClass "c1" ⟨[⟨"c1", "5A"⟩], [⟨"s1", "Ali", 5, "c1"⟩]⟩).1 ∧
    StudentRefsOK (memCreateStudent (JSVal.str "Vali") (JSVal.str "c1") "s2"
        ⟨[⟨"c1", "5A"⟩], [⟨"s1", "Ali", 5, "c1"⟩]⟩).1 ∧
    StudentRefsOK (memDeleteStudent "s1" ⟨[⟨"c1", "5A"⟩], [⟨"s1", "Ali", 5, "c1"⟩]⟩).1 ∧
    StudentRefsOK (memApplyCoins (JSVal.num 4) "s1"
        ⟨[⟨"c1", "5A"⟩], [⟨"s1", "Ali", 5, "c1"⟩]⟩).1 ∧
    (memListStudentsByClass
        (memDeleteClass "c1" ⟨[⟨"c1", "5A"⟩], [⟨"s1", "Ali", 5, "c1"⟩]⟩).1 "c1" = [] ∧
      ∀ pr ∈ memListClasses
        (memDeleteClass "c1" ⟨[⟨"c1", "5A"⟩], [⟨"s1", "Ali", 5, "c1"⟩]⟩).1, pr.1 ≠ "c1") :=
  ⟨claim3_refs_invariant.1 (JSVal.str "6B") "c2" _ (by decide),
    claim3_refs_invariant.2.1 "c1" _ (by decide),
    claim3_refs_invariant.2.2.1 (JSVal.str "Vali") (JSVal.str "c1") "s2" _ (by decide),
    claim3_refs_invariant.2.2.2.1 "s1" _ (by decide),
    claim3_refs_invariant.2.2.2.2.1 (JSVal.num 4) "s1" _ (by decide),
    claim3_refs_invariant.2.2.2.2.2 "c1" _ (by decide) (by decide)⟩

/-- C9 witness: the characterization instantiated on a concrete freshly
signed token, exhibiting the accepting side with every check discharged
by evaluation. -/
theorem claim9_witness :
    verifyToken macModel (signToken macModel ⟨1, 604800000⟩) 5 = true :=
  (claim9_verify_total macModel (signToken macModel ⟨1, 604800000⟩) 5).mpr
    ⟨"eyJhIjoxLCJleHAiOjYwNDgwMDAwMH0", "sig4146185762", [], by decide, by decide, by decide,
      by decide, ⟨some 1, some 604800000⟩, by decide, by decide, 604800000, by decide,
      by decide, by decide⟩
